import Mathlib

/-!
Verification of the Crypto-Reward Puzzle API core (src/main.py) against its
natural-language specification.  The Python operations are shallowly embedded:
the Mongo collections become lists of records inside a `Store`, `insert_one`
is list append, `find_one` is `List.find?`, and `update_one` with `$inc` on
`balance` updates the first matching record.  Python's `//` on integers is
floor division, embedded as `Int.fdiv`.
-/

namespace RewardApi

/-- A document of the `user` collection (created by `register` in main.py). -/
structure User where
  username : String
  ton_address : Option String
  referred_by : Option String
  is_banned : Bool
  balance : Int
deriving Repr, DecidableEq

/-- A document of the `reward` collection (created by `submit_score`). -/
structure Reward where
  username : String
  game : String
  score : Int
  points_awarded : Int
  reason : String
deriving Repr, DecidableEq

/-- A document of the `withdrawalrequest` collection (created by `request_withdrawal`). -/
structure WithdrawalRequest where
  username : String
  ton_address : String
  points : Int
  status : String
deriving Repr, DecidableEq

/-- The database state: the collections touched by the balance-ledger core. -/
structure Store where
  users : List User
  rewards : List Reward
  withdrawals : List WithdrawalRequest
deriving Repr, DecidableEq

/-- The empty database. -/
def emptyStore : Store := ⟨[], [], []⟩

/-- Error kinds raised by the operations (`HTTPException` status codes
404, 403 and 400 in main.py). -/
inductive Err where
  | NotFound
  | Forbidden
  | InvalidAmount
deriving Repr, DecidableEq

/-- Embeds `collection("user").find_one({"username": username})`:
the first user document with the given username, if any. -/
def findUser (users : List User) (username : String) : Option User :=
  users.find? (fun u => u.username == username)

/-- Embeds `points_for` of main.py:
`base = max(0, score // 10); return min(base, cap_map.get(game, 100))`
where `cap_map` maps "word", "tiles" and "parking" each to 100. -/
def points_for (game : String) (score : Int) : Int :=
  let base := max 0 (Int.fdiv score 10)
  let cap : Int :=
    if game == "word" then 100
    else if game == "tiles" then 100
    else if game == "parking" then 100
    else 100
  min base cap

/-- Result of the `register` route: `{"ok": True, "message": "User exists"}`
or `{"ok": True}`. -/
structure RegisterResult where
  ok : Bool
  message : Option String
deriving Repr, DecidableEq

/-- Embeds the `register` route of main.py: if a user document with this
username exists, return ok without touching the store; otherwise insert a
fresh user with `is_banned = False` and `balance = 0`. -/
def register (s : Store) (username : String) (ton_address referred_by : Option String) :
    RegisterResult × Store :=
  match findUser s.users username with
  | some _ => (⟨true, some "User exists"⟩, s)
  | none =>
      (⟨true, none⟩,
        { s with users := s.users ++ [⟨username, ton_address, referred_by, false, 0⟩] })

/-- Embeds `update_one({"username": username}, {"$inc": {"balance": delta}})`:
increment the balance of the first user document matching the username. -/
def update_balance (users : List User) (username : String) (delta : Int) : List User :=
  match users with
  | [] => []
  | u :: rest =>
      if u.username == username then { u with balance := u.balance + delta } :: rest
      else u :: update_balance rest username delta

/-- Embeds the `submit_score` route of main.py: 404 if the user is absent,
403 if banned; otherwise append a reward document with the computed points
and reason "session_completed", increment the balance, and return the
awarded points. The `duration_sec` field of the request body is ignored. -/
def submit_score (s : Store) (username game : String) (score duration_sec : Int) :
    Except Err (Int × Store) :=
  match findUser s.users username with
  | none => .error .NotFound
  | some user =>
      if user.is_banned then .error .Forbidden
      else
        let pts := points_for game score
        .ok (pts,
          { s with
            rewards := s.rewards ++ [⟨username, game, score, pts, "session_completed"⟩],
            users := update_balance s.users username pts })

/-- Embeds the `request_withdrawal` route of main.py: 404 if the user is
absent, 400 if `points <= 0` or `points > balance`; otherwise append a
withdrawal request with status "pending" and decrement the balance.
Note: the route performs no `is_banned` check. -/
def request_withdrawal (s : Store) (username ton_address : String) (points : Int) :
    Except Err Store :=
  match findUser s.users username with
  | none => .error .NotFound
  | some user =>
      if points ≤ 0 ∨ user.balance < points then .error .InvalidAmount
      else
        .ok { s with
          withdrawals := s.withdrawals ++ [⟨username, ton_address, points, "pending"⟩],
          users := update_balance s.users username (-points) }

/-- Embeds the `leaderboard` route of main.py: group reward documents by
username, sum `points_awarded` per username. -/
def rewardTotal (rs : List Reward) (username : String) : Int :=
  ((rs.filter (fun r => r.username == username)).map (fun r => r.points_awarded)).sum

/-- Sum of `points` over the withdrawal requests of a username whose status
is not "rejected" (all requests created by the API are "pending"). -/
def heldTotal (ws : List WithdrawalRequest) (username : String) : Int :=
  ((ws.filter (fun w => w.username == username && w.status != "rejected")).map
    (fun w => w.points)).sum

/-- Stable descending insertion by total, embedding the sort stage
`{"$sort": {"total": -1}}` of the leaderboard pipeline. -/
def insertDesc (p : String × Int) : List (String × Int) → List (String × Int)
  | [] => [p]
  | q :: rest => if q.2 < p.2 then p :: q :: rest else q :: insertDesc p rest

/-- Sort a list of (username, total) pairs by total, descending. -/
def sortDesc (l : List (String × Int)) : List (String × Int) :=
  l.foldr insertDesc []

/-- Embeds the `leaderboard` route of main.py: the aggregation pipeline
groups reward documents by username summing `points_awarded`, sorts by the
total descending, and truncates to `limit` entries.  Read-only: the store is
not modified. -/
def leaderboard (s : Store) (limit : Nat) : List (String × Int) :=
  (sortDesc (((s.rewards.map (fun r => r.username)).dedup).map
    (fun n => (n, rewardTotal s.rewards n)))).take limit

/-- One API call of the balance-ledger core, with its request-body fields. -/
inductive Op where
  | opRegister (username : String) (ton_address referred_by : Option String)
  | opSubmit (username game : String) (score duration_sec : Int)
  | opWithdraw (username ton_address : String) (points : Int)
deriving Repr, DecidableEq

/-- Apply one API call to the store; a call that raises an HTTPException
leaves the store unchanged (the exception is raised before any write). -/
def applyOp (s : Store) : Op → Store
  | .opRegister u t r => (register s u t r).2
  | .opSubmit u g sc d =>
      match submit_score s u g sc d with
      | .ok (_, s₁) => s₁
      | .error _ => s
  | .opWithdraw u t p =>
      match request_withdrawal s u t p with
      | .ok s₁ => s₁
      | .error _ => s

/-- The store after a sequential run of API calls from a starting store. -/
def run (s : Store) (ops : List Op) : Store :=
  ops.foldl applyOp s

/-- The frame of a `$inc` balance update: the user list is split around the
first record with the given username; only that record changes, and only its
`balance` field (by exactly `delta`). -/
def UsersFrame (old new : List User) (username : String) (delta : Int) : Prop :=
  ∃ pre u post,
    old = pre ++ u :: post ∧ u.username = username ∧
    (∀ v ∈ pre, v.username ≠ username) ∧
    new = pre ++ { u with balance := u.balance + delta } :: post

/-- Every user balance in the store is non-negative. -/
def NonNegBalances (s : Store) : Prop :=
  ∀ u ∈ s.users, 0 ≤ u.balance

/-- The ledger consistency invariant: usernames are unique, every reward and
withdrawal record names a registered user, and every balance equals rewards
earned minus non-rejected withdrawals. -/
def LedgerInv (s : Store) : Prop :=
  (s.users.map (fun u => u.username)).Nodup ∧
  (∀ r ∈ s.rewards, r.username ∈ s.users.map (fun u => u.username)) ∧
  (∀ w ∈ s.withdrawals, w.username ∈ s.users.map (fun u => u.username)) ∧
  ∀ u ∈ s.users, u.balance = rewardTotal s.rewards u.username -
    heldTotal s.withdrawals u.username

deriving instance DecidableEq for Except

/-- A sample user for concrete instantiations. -/
def sampleUser : User := ⟨"alice", some "addr1", none, false, 100⟩

/-- A sample store with one non-banned user holding 100 points. -/
def sampleStore : Store := ⟨[sampleUser], [], []⟩

/-- A sample banned user. -/
def bannedUser : User := ⟨"mallory", none, none, true, 10⟩

/-- A sample store whose only user is banned and holds 10 points. -/
def bannedStore : Store := ⟨[bannedUser], [], []⟩

/-- The reward multiset {A:50, B:30, A:20} of the leaderboard example. -/
def exampleRewards : List Reward :=
  [⟨"A", "word", 500, 50, "session_completed"⟩,
   ⟨"B", "word", 300, 30, "session_completed"⟩,
   ⟨"A", "word", 200, 20, "session_completed"⟩]

/-- A sample sequential run: register alice, submit a word score of 999
(awards 99), withdraw 40 (balance becomes 59). -/
def sampleOps : List Op :=
  [Op.opRegister "alice" none none,
   Op.opSubmit "alice" "word" 999 5,
   Op.opWithdraw "alice" "addr1" 40]

/-- The user record alice holds after `sampleOps`. -/
def aliceAfter : User := ⟨"alice", none, none, false, 59⟩

section Lemmas

/-- A successful `find_one` splits the list at the first matching record. -/
theorem findUser_decomp (users : List User) (n : String) (u : User)
    (h : findUser users n = some u) :
    ∃ pre post, users = pre ++ u :: post ∧ u.username = n ∧
      ∀ v ∈ pre, v.username ≠ n := by
  induction users with
  | nil => simp [findUser] at h
  | cons v rest ih =>
      by_cases hv : v.username = n
      · refine ⟨[], rest, ?_, ?_, by simp⟩
        · have : findUser (v :: rest) n = some v := by
            simp [findUser, List.find?_cons_of_pos, hv]
          rw [this] at h
          simp_all
        · have : findUser (v :: rest) n = some v := by
            simp [findUser, List.find?_cons_of_pos, hv]
          rw [this] at h
          simp_all
      · have hfind : findUser (v :: rest) n = findUser rest n := by
          simp [findUser, List.find?_cons_of_neg, hv]
        rw [hfind] at h
        obtain ⟨pre, post, heq, hn, hpre⟩ := ih h
        exact ⟨v :: pre, post, by simp [heq], hn, by
          intro w hw
          rcases List.mem_cons.mp hw with hw | hw
          · exact hw ▸ hv
          · exact hpre w hw⟩

/-- A `find_one` miss means no record matches. -/
theorem findUser_none (users : List User) (n : String)
    (h : findUser users n = none) : ∀ v ∈ users, v.username ≠ n := by
  intro v hv
  have := List.find?_eq_none.mp h v hv
  simpa using this

/-- Updating the balance of the first user with a given username rewrites
exactly that record. -/
theorem update_balance_decomp (pre post : List User) (u : User) (n : String)
    (δ : Int) (hpre : ∀ v ∈ pre, v.username ≠ n) (hu : u.username = n) :
    update_balance (pre ++ u :: post) n δ =
      pre ++ { u with balance := u.balance + δ } :: post := by
  induction pre with
  | nil => simp [update_balance, hu]
  | cons v rest ih =>
      have hv : v.username ≠ n := hpre v (by simp)
      simp only [List.cons_append, update_balance]
      rw [if_neg (by simpa using hv)]
      simp only [List.append_eq]
      rw [ih (fun w hw => hpre w (List.mem_cons_of_mem v hw))]

/-- A balance update never changes the sequence of usernames. -/
theorem update_balance_usernames (users : List User) (n : String) (δ : Int) :
    (update_balance users n δ).map (fun u => u.username) =
      users.map (fun u => u.username) := by
  induction users with
  | nil => rfl
  | cons v rest ih =>
      by_cases hv : v.username == n
      · simp [update_balance, hv]
      · simp [update_balance, hv, ih]

/-- Appending a reward document adds its points to its user's total and to no
other. -/
theorem rewardTotal_append (rs : List Reward) (r : Reward) (n : String) :
    rewardTotal (rs ++ [r]) n =
      rewardTotal rs n + (if r.username = n then r.points_awarded else 0) := by
  unfold rewardTotal
  rw [List.filter_append, List.map_append, List.sum_append]
  by_cases h : r.username = n <;> simp [List.filter_cons, h]

/-- Appending a pending withdrawal document adds its points to its user's
held total and to no other. -/
theorem heldTotal_append_pending (ws : List WithdrawalRequest)
    (w : WithdrawalRequest) (n : String) (hw : w.status = "pending") :
    heldTotal (ws ++ [w]) n =
      heldTotal ws n + (if w.username = n then w.points else 0) := by
  unfold heldTotal
  rw [List.filter_append, List.map_append, List.sum_append]
  by_cases h : w.username = n <;> simp [List.filter_cons, h, hw]

/-- A username with no reward documents has reward total zero. -/
theorem rewardTotal_zero (rs : List Reward) (n : String)
    (h : ∀ r ∈ rs, r.username ≠ n) : rewardTotal rs n = 0 := by
  unfold rewardTotal
  have : rs.filter (fun r => r.username == n) = [] := by
    rw [List.filter_eq_nil_iff]
    intro r hr
    simpa using h r hr
  rw [this]
  rfl

/-- A username with no withdrawal documents has held total zero. -/
theorem heldTotal_zero (ws : List WithdrawalRequest) (n : String)
    (h : ∀ w ∈ ws, w.username ≠ n) : heldTotal ws n = 0 := by
  unfold heldTotal
  have : ws.filter (fun w => w.username == n && w.status != "rejected") = [] := by
    rw [List.filter_eq_nil_iff]
    intro w hw
    simp [h w hw]
  rw [this]
  rfl

/-- Membership in a descending insertion. -/
theorem mem_insertDesc (p q : String × Int) (l : List (String × Int)) :
    q ∈ insertDesc p l ↔ q = p ∨ q ∈ l := by
  induction l with
  | nil => simp [insertDesc]
  | cons r rest ih =>
      by_cases h : r.2 < p.2
      · simp [insertDesc, h]
      · simp [insertDesc, h, ih]
        tauto

/-- Descending insertion produces a permutation. -/
theorem insertDesc_perm (p : String × Int) (l : List (String × Int)) :
    (insertDesc p l).Perm (p :: l) := by
  induction l with
  | nil => simp [insertDesc]
  | cons q rest ih =>
      by_cases h : q.2 < p.2
      · simp [insertDesc, h]
      · simp only [insertDesc, if_neg h]
        exact (ih.cons q).trans (List.Perm.swap p q rest)

/-- Descending insertion preserves descending order. -/
theorem insertDesc_pairwise (p : String × Int) (l : List (String × Int))
    (h : l.Pairwise (fun a b => b.2 ≤ a.2)) :
    (insertDesc p l).Pairwise (fun a b => b.2 ≤ a.2) := by
  induction l with
  | nil => simp [insertDesc]
  | cons q rest ih =>
      rcases List.pairwise_cons.mp h with ⟨hq, hrest⟩
      by_cases hlt : q.2 < p.2
      · rw [insertDesc, if_pos hlt]
        refine List.pairwise_cons.mpr ⟨?_, h⟩
        intro x hx
        rcases List.mem_cons.mp hx with hx | hx
        · exact hx ▸ le_of_lt hlt
        · exact le_trans (hq x hx) (le_of_lt hlt)
      · rw [insertDesc, if_neg hlt]
        refine List.pairwise_cons.mpr ⟨?_, ih hrest⟩
        intro x hx
        rcases (mem_insertDesc p x rest).mp hx with hx | hx
        · exact hx ▸ le_of_not_lt hlt
        · exact hq x hx

/-- The descending sort is a permutation of its input. -/
theorem sortDesc_perm (l : List (String × Int)) : (sortDesc l).Perm l := by
  induction l with
  | nil => simp [sortDesc]
  | cons p rest ih =>
      exact (insertDesc_perm p (sortDesc rest)).trans (ih.cons p)

/-- The descending sort is sorted: totals are non-increasing left to right. -/
theorem sortDesc_pairwise (l : List (String × Int)) :
    (sortDesc l).Pairwise (fun a b => b.2 ≤ a.2) := by
  induction l with
  | nil => simp [sortDesc]
  | cons p rest ih => exact insertDesc_pairwise p (sortDesc rest) ih

/-- The award is never negative (true for every game and every score). -/
theorem points_for_nonneg (g : String) (s : Int) : 0 ≤ points_for g s := by
  unfold points_for
  simp only [ite_self]
  exact le_min (le_max_left 0 _) (by norm_num)

/-- The award never exceeds the cap of 100. -/
theorem points_for_le (g : String) (s : Int) : points_for g s ≤ 100 := by
  unfold points_for
  simp only [ite_self]
  exact min_le_right _ _

/-- A negative score awards zero points. -/
theorem points_for_of_neg (g : String) (s : Int) (hs : s < 0) :
    points_for g s = 0 := by
  unfold points_for
  simp only [ite_self]
  have : Int.fdiv s 10 < 0 := Int.fdiv_neg' hs (by norm_num)
  rw [max_eq_left (le_of_lt this)]
  simp

/-- A balance increment by a non-negative delta keeps balances non-negative. -/
theorem update_balance_nonneg (users : List User) (n : String) (δ : Int)
    (hδ : 0 ≤ δ) (h : ∀ u ∈ users, 0 ≤ u.balance) :
    ∀ u ∈ update_balance users n δ, 0 ≤ u.balance := by
  induction users with
  | nil => simp [update_balance]
  | cons v rest ih =>
      by_cases hv : v.username == n
      · rw [update_balance, if_pos hv]
        intro u hu
        rcases List.mem_cons.mp hu with h1 | h1
        · subst h1
          have := h v (by simp)
          simp only []
          linarith
        · exact h u (List.mem_cons_of_mem v h1)
      · rw [update_balance, if_neg hv]
        intro u hu
        rcases List.mem_cons.mp hu with h1 | h1
        · exact h1 ▸ h v (by simp)
        · exact ih (fun w hw => h w (List.mem_cons_of_mem v hw)) u h1

/-- A balance decrement bounded by the first matching user's balance keeps
balances non-negative. -/
theorem update_balance_nonneg_sub (users : List User) (n : String) (p : Int)
    (u : User) (hf : findUser users n = some u) (hp : p ≤ u.balance)
    (h : ∀ v ∈ users, 0 ≤ v.balance) :
    ∀ v ∈ update_balance users n (-p), 0 ≤ v.balance := by
  obtain ⟨pre, post, heq, hn, hpre⟩ := findUser_decomp users n u hf
  rw [heq, update_balance_decomp pre post u n (-p) hpre hn]
  intro v hv
  rcases List.mem_append.mp hv with hv | hv
  · exact h v (heq ▸ List.mem_append_left _ hv)
  · rcases List.mem_cons.mp hv with hv | hv
    · subst hv
      simp only []
      linarith
    · exact h v (heq ▸ List.mem_append_right _ (List.mem_cons_of_mem u hv))

/-- With unique usernames, every record of an updated user list is either the
rewritten first match or an untouched record of a different username. -/
theorem mem_update_balance (users : List User) (n : String) (δ : Int) (u : User)
    (hf : findUser users n = some u)
    (hnd : (users.map (fun v => v.username)).Nodup) :
    ∀ v ∈ update_balance users n δ,
      v = { u with balance := u.balance + δ } ∨ (v ∈ users ∧ v.username ≠ n) := by
  obtain ⟨pre, post, heq, hn, hpre⟩ := findUser_decomp users n u hf
  rw [heq, update_balance_decomp pre post u n δ hpre hn]
  have hpost : ∀ v ∈ post, v.username ≠ n := by
    intro v hv
    have hsub : (u.username :: post.map (fun w => w.username)).Sublist
        (users.map (fun w => w.username)) := by
      rw [heq, List.map_append, List.map_cons]
      exact List.sublist_append_right _ _
    have hcons := hnd.sublist hsub
    rcases List.nodup_cons.mp hcons with ⟨hnotmem, _⟩
    intro hvn
    exact hnotmem (hn ▸ hvn ▸ List.mem_map_of_mem (fun w => w.username) hv)
  intro v hv
  rcases List.mem_append.mp hv with hv | hv
  · exact Or.inr ⟨List.mem_append_left _ hv, hpre v hv⟩
  · rcases List.mem_cons.mp hv with hv | hv
    · exact Or.inl hv
    · exact Or.inr ⟨List.mem_append_right _ (List.mem_cons_of_mem u hv),
        hpost v hv⟩

/-- Sequential runs preserve non-negative balances. -/
theorem applyOp_nonneg (s : Store) (op : Op) (h : NonNegBalances s) :
    NonNegBalances (applyOp s op) := by
  cases op with
  | opRegister n t r =>
      cases hf : findUser s.users n with
      | some u =>
          simp only [applyOp, register, hf]
          exact h
      | none =>
          simp only [applyOp, register, hf]
          intro u hu
          rcases List.mem_append.mp hu with hu | hu
          · exact h u hu
          · rcases List.mem_cons.mp hu with hu | hu
            · subst hu; simp
            · simp at hu
  | opSubmit n g sc d =>
      cases hf : findUser s.users n with
      | none =>
          simp only [applyOp, submit_score, hf]
          exact h
      | some u =>
          by_cases hb : u.is_banned
          · simp only [applyOp, submit_score, hf, if_pos hb]
            exact h
          · simp only [applyOp, submit_score, hf, if_neg hb]
            exact update_balance_nonneg s.users n (points_for g sc)
              (points_for_nonneg g sc) h
  | opWithdraw n t p =>
      cases hf : findUser s.users n with
      | none =>
          simp only [applyOp, request_withdrawal, hf]
          exact h
      | some u =>
          by_cases hc : p ≤ 0 ∨ u.balance < p
          · simp only [applyOp, request_withdrawal, hf, if_pos hc]
            exact h
          · simp only [applyOp, request_withdrawal, hf, if_neg hc]
            push_neg at hc
            exact update_balance_nonneg_sub s.users n p u hf hc.2 h

/-- A found user is a member of the list and carries the searched username. -/
theorem findUser_some (users : List User) (n : String) (u : User)
    (h : findUser users n = some u) : u ∈ users ∧ u.username = n := by
  refine ⟨List.mem_of_find?_eq_some h, ?_⟩
  have := List.find?_some h
  simpa using this

/-- The ledger invariant is preserved by any single API call. -/
theorem applyOp_ledgerInv (s : Store) (op : Op) (h : LedgerInv s) :
    LedgerInv (applyOp s op) := by
  obtain ⟨hnd, hr, hw, hbal⟩ := h
  cases op with
  | opRegister n t r =>
      cases hf : findUser s.users n with
      | some u =>
          simp only [applyOp, register, hf]
          exact ⟨hnd, hr, hw, hbal⟩
      | none =>
          have hnone := findUser_none s.users n hf
          have hnmem : n ∉ s.users.map (fun v => v.username) := by
            intro hmem
            obtain ⟨v, hv, hvn⟩ := List.mem_map.mp hmem
            exact hnone v hv hvn
          have hrz : ∀ r' ∈ s.rewards, r'.username ≠ n := by
            intro r' hr' heqn
            exact hnmem (heqn ▸ hr r' hr')
          have hwz : ∀ w' ∈ s.withdrawals, w'.username ≠ n := by
            intro w' hw' heqn
            exact hnmem (heqn ▸ hw w' hw')
          simp only [applyOp, register, hf]
          refine ⟨?_, ?_, ?_, ?_⟩
          · rw [List.map_append]
            refine List.Nodup.append hnd (by simp) ?_
            intro a ha hb
            simp only [List.map_cons, List.map_nil, List.mem_singleton] at hb
            exact hnmem (hb ▸ ha)
          · intro r' hr'
            rw [List.map_append]
            exact List.mem_append_left _ (hr r' hr')
          · intro w' hw'
            rw [List.map_append]
            exact List.mem_append_left _ (hw w' hw')
          · intro v hv
            rcases List.mem_append.mp hv with hv | hv
            · exact hbal v hv
            · rcases List.mem_cons.mp hv with hv | hv
              · subst hv
                simp only []
                rw [rewardTotal_zero s.rewards n hrz, heldTotal_zero s.withdrawals n hwz]
                ring
              · simp at hv
  | opSubmit n g sc d =>
      cases hf : findUser s.users n with
      | none =>
          simp only [applyOp, submit_score, hf]
          exact ⟨hnd, hr, hw, hbal⟩
      | some u =>
          obtain ⟨humem, hn⟩ := findUser_some s.users n u hf
          by_cases hb : u.is_banned
          · simp only [applyOp, submit_score, hf, if_pos hb]
            exact ⟨hnd, hr, hw, hbal⟩
          · simp only [applyOp, submit_score, hf, if_neg hb]
            refine ⟨?_, ?_, ?_, ?_⟩
            · rw [update_balance_usernames]
              exact hnd
            · intro r' hr'
              rw [update_balance_usernames]
              rcases List.mem_append.mp hr' with hr' | hr'
              · exact hr r' hr'
              · rcases List.mem_cons.mp hr' with hr' | hr'
                · subst hr'
                  exact hn ▸ List.mem_map_of_mem (fun v => v.username) humem
                · simp at hr'
            · intro w' hw'
              rw [update_balance_usernames]
              exact hw w' hw'
            · intro v hv
              rcases mem_update_balance s.users n (points_for g sc) u hf hnd v hv
                with hv | ⟨hvmem, hvn⟩
              · subst hv
                simp only []
                rw [rewardTotal_append, if_pos hn.symm]
                rw [hbal u humem, hn]
                ring
              · rw [rewardTotal_append, if_neg (fun hh => hvn hh.symm)]
                rw [hbal v hvmem]
                ring
  | opWithdraw n t p =>
      cases hf : findUser s.users n with
      | none =>
          simp only [applyOp, request_withdrawal, hf]
          exact ⟨hnd, hr, hw, hbal⟩
      | some u =>
          obtain ⟨humem, hn⟩ := findUser_some s.users n u hf
          by_cases hc : p ≤ 0 ∨ u.balance < p
          · simp only [applyOp, request_withdrawal, hf, if_pos hc]
            exact ⟨hnd, hr, hw, hbal⟩
          · simp only [applyOp, request_withdrawal, hf, if_neg hc]
            refine ⟨?_, ?_, ?_, ?_⟩
            · rw [update_balance_usernames]
              exact hnd
            · intro r' hr'
              rw [update_balance_usernames]
              exact hr r' hr'
            · intro w' hw'
              rw [update_balance_usernames]
              rcases List.mem_append.mp hw' with hw' | hw'
              · exact hw w' hw'
              · rcases List.mem_cons.mp hw' with hw' | hw'
                · subst hw'
                  exact hn ▸ List.mem_map_of_mem (fun v => v.username) humem
                · simp at hw'
            · intro v hv
              rcases mem_update_balance s.users n (-p) u hf hnd v hv
                with hv | ⟨hvmem, hvn⟩
              · subst hv
                simp only []
                rw [heldTotal_append_pending s.withdrawals _ _ rfl, if_pos hn.symm]
                rw [hbal u humem, hn]
                ring
              · rw [heldTotal_append_pending s.withdrawals _ _ rfl,
                  if_neg (fun hh => hvn hh.symm)]
                rw [hbal v hvmem]
                ring

/-- The ledger invariant holds of the empty database. -/
theorem ledgerInv_empty : LedgerInv emptyStore := by
  refine ⟨by simp [emptyStore], by simp [emptyStore], by simp [emptyStore], by simp [emptyStore]⟩

/-- The ledger invariant is preserved along any sequential run. -/
theorem run_ledgerInv (ops : List Op) (s : Store) (h : LedgerInv s) :
    LedgerInv (run s ops) := by
  induction ops generalizing s with
  | nil => exact h
  | cons op rest ih => exact ih (applyOp s op) (applyOp_ledgerInv s op h)

/-- Non-negative balances are preserved along any sequential run. -/
theorem run_nonneg (ops : List Op) (s : Store) (h : NonNegBalances s) :
    NonNegBalances (run s ops) := by
  induction ops generalizing s with
  | nil => exact h
  | cons op rest ih => exact ih (applyOp s op) (applyOp_nonneg s op h)

end Lemmas

section Claims

/-- C1: for every game identifier (including identifiers outside the
word/tiles/parking enum) and every non-negative score s, the award
calculator returns exactly min(s // 10, 100) (Python floor division,
embedded as Int.fdiv), which is non-negative; the cap is 100 for every
known game and defaults to 100 for unrecognized identifiers, and the
function is total with no error conditions. -/
theorem C1_points_for_spec (g : String) (s : Int) (hs : 0 ≤ s) :
    points_for g s = min (Int.fdiv s 10) 100 ∧ 0 ≤ points_for g s := by
  refine ⟨?_, points_for_nonneg g s⟩
  unfold points_for
  simp only [ite_self]
  rw [max_eq_right (Int.fdiv_nonneg hs (by norm_num))]

/-- Witness for C1 at the unrecognized game identifier "chess" and score
2345 (2345 // 10 = 234 is capped to 100). -/
theorem C1_points_for_spec_witness :
    (0 : Int) ≤ 2345 ∧
    (points_for "chess" 2345 = min (Int.fdiv 2345 10) 100 ∧
      0 ≤ points_for "chess" 2345) :=
  ⟨by decide, C1_points_for_spec "chess" 2345 (by decide)⟩

/-- C2: starting from the empty store, after any sequence of register,
submit_score and request_withdrawal calls executed sequentially, every
stored user balance is non-negative. -/
theorem C2_balance_nonneg (ops : List Op) (u : User)
    (hu : u ∈ (run emptyStore ops).users) : 0 ≤ u.balance :=
  run_nonneg ops emptyStore (fun v hv => by simp [emptyStore] at hv) u hu

/-- Witness for C2 on the sample run (register, submit 999, withdraw 40). -/
theorem C2_balance_nonneg_witness :
    aliceAfter ∈ (run emptyStore sampleOps).users ∧ 0 ≤ aliceAfter.balance :=
  ⟨by decide, C2_balance_nonneg sampleOps aliceAfter (by decide)⟩

/-- C3: for every existing user and every requested amount with
points ≤ 0 or points > balance, request_withdrawal fails with
InvalidAmount, creates no WithdrawalRequest record and leaves the whole
store unchanged. -/
theorem C3_invalid_amount (s : Store) (un t : String) (p : Int) (u : User)
    (hu : findUser s.users un = some u) (hp : p ≤ 0 ∨ u.balance < p) :
    request_withdrawal s un t p = Except.error Err.InvalidAmount ∧
    applyOp s (Op.opWithdraw un t p) = s := by
  have he : request_withdrawal s un t p = Except.error Err.InvalidAmount := by
    simp only [request_withdrawal, hu, if_pos hp]
  exact ⟨he, by simp only [applyOp, he]⟩

/-- Witness for C3: alice holds 100 points and requests 200. -/
theorem C3_invalid_amount_witness :
    (findUser sampleStore.users "alice" = some sampleUser ∧
      ((200 : Int) ≤ 0 ∨ sampleUser.balance < 200)) ∧
    (request_withdrawal sampleStore "alice" "addr1" 200 =
        Except.error Err.InvalidAmount ∧
      applyOp sampleStore (Op.opWithdraw "alice" "addr1" 200) = sampleStore) :=
  ⟨⟨by decide, by decide⟩,
    C3_invalid_amount sampleStore "alice" "addr1" 200 sampleUser
      (by decide) (by decide)⟩

/-- C4 counterexample: a banned user (mallory, balance 10) requesting a
valid amount (5) is NOT rejected with Forbidden; the request succeeds,
creating a pending WithdrawalRequest and decrementing the balance, because
the withdraw route performs no is_banned check. -/
theorem C4_counterexample :
    request_withdrawal bannedStore "mallory" "tonaddr" 5 ≠
      Except.error Err.Forbidden ∧
    request_withdrawal bannedStore "mallory" "tonaddr" 5 =
      Except.ok ⟨[⟨"mallory", none, none, true, 5⟩], [],
        [⟨"mallory", "tonaddr", 5, "pending"⟩]⟩ := by
  decide

/-- C4 amended: request_withdrawal performs no ban check.  For every
existing user, banned included, a request with 0 < points ≤ balance
succeeds (it is never rejected with Forbidden or any other error),
appending a pending WithdrawalRequest and decrementing the balance. -/
theorem C4_amended_no_ban_check (s : Store) (un t : String) (p : Int)
    (u : User) (hu : findUser s.users un = some u) (hban : u.is_banned = true)
    (h0 : 0 < p) (hb : p ≤ u.balance) :
    request_withdrawal s un t p =
      Except.ok { s with
        withdrawals := s.withdrawals ++ [⟨un, t, p, "pending"⟩],
        users := update_balance s.users un (-p) } ∧
    ∀ e, request_withdrawal s un t p ≠ Except.error e := by
  have hcond : ¬(p ≤ 0 ∨ u.balance < p) := by
    push_neg
    exact ⟨h0, hb⟩
  have he : request_withdrawal s un t p =
      Except.ok { s with
        withdrawals := s.withdrawals ++ [⟨un, t, p, "pending"⟩],
        users := update_balance s.users un (-p) } := by
    simp only [request_withdrawal, hu, if_neg hcond]
  refine ⟨he, fun e hcontra => ?_⟩
  rw [he] at hcontra
  cases hcontra

/-- Witness for the amended C4 on the banned sample user. -/
theorem C4_amended_witness :
    request_withdrawal bannedStore "mallory" "tonaddr" 5 =
      Except.ok { bannedStore with
        withdrawals := bannedStore.withdrawals ++ [⟨"mallory", "tonaddr", 5, "pending"⟩],
        users := update_balance bannedStore.users "mallory" (-5) } ∧
    request_withdrawal bannedStore "mallory" "tonaddr" 5 ≠
      Except.error Err.Forbidden :=
  let h := C4_amended_no_ban_check bannedStore "mallory" "tonaddr" 5 bannedUser
    (by decide) (by decide) (by decide) (by decide)
  ⟨h.1, h.2 Err.Forbidden⟩

/-- C5: for every existing non-banned user, submit_score appends exactly
one Reward record carrying points_for(game, score) with reason
"session_completed", increments exactly that user's balance by that
amount, and returns the awarded amount; in particular points_for "word"
999 = 99. -/
theorem C5_submit_score_spec (s : Store) (un g : String) (sc d : Int)
    (u : User) (hu : findUser s.users un = some u)
    (hb : u.is_banned = false) :
    submit_score s un g sc d =
      Except.ok (points_for g sc, { s with
        rewards := s.rewards ++
          [⟨un, g, sc, points_for g sc, "session_completed"⟩],
        users := update_balance s.users un (points_for g sc) }) ∧
    (∃ pre post, s.users = pre ++ u :: post ∧
      (∀ v ∈ pre, v.username ≠ un) ∧
      update_balance s.users un (points_for g sc) =
        pre ++ { u with balance := u.balance + points_for g sc } :: post) ∧
    points_for "word" 999 = 99 := by
  refine ⟨?_, ?_, by decide⟩
  · simp [submit_score, hu, hb]
  · obtain ⟨pre, post, heq, hn, hpre⟩ := findUser_decomp s.users un u hu
    refine ⟨pre, post, heq, hpre, ?_⟩
    rw [heq]
    exact update_balance_decomp pre post u un _ hpre hn

/-- Witness for C5: alice submits a word score of 999 and is credited 99. -/
theorem C5_submit_score_spec_witness :
    submit_score sampleStore "alice" "word" 999 7 =
      Except.ok (points_for "word" 999, { sampleStore with
        rewards := sampleStore.rewards ++
          [⟨"alice", "word", 999, points_for "word" 999, "session_completed"⟩],
        users := update_balance sampleStore.users "alice" (points_for "word" 999) }) ∧
    points_for "word" 999 = 99 :=
  let h := C5_submit_score_spec sampleStore "alice" "word" 999 7 sampleUser
    (by decide) (by decide)
  ⟨h.1, h.2.2⟩

/-- C6: in every store reachable by a sequential run from the empty store,
each user's balance equals the sum of points_awarded over the user's
Reward records minus the sum of points over the user's non-rejected
WithdrawalRequest records. -/
theorem C6_balance_equation (ops : List Op) (u : User)
    (hu : u ∈ (run emptyStore ops).users) :
    u.balance = rewardTotal (run emptyStore ops).rewards u.username -
      heldTotal (run emptyStore ops).withdrawals u.username :=
  (run_ledgerInv ops emptyStore ledgerInv_empty).2.2.2 u hu

/-- Witness for C6 on the sample run: 59 = 99 - 40. -/
theorem C6_balance_equation_witness :
    aliceAfter ∈ (run emptyStore sampleOps).users ∧
    aliceAfter.balance =
      rewardTotal (run emptyStore sampleOps).rewards aliceAfter.username -
        heldTotal (run emptyStore sampleOps).withdrawals aliceAfter.username :=
  ⟨by decide, C6_balance_equation sampleOps aliceAfter (by decide)⟩

/-- C7: register is idempotent: registering a username twice (whatever the
second call's optional fields) succeeds both times and the second call
leaves the store exactly as the first call left it. -/
theorem C7_register_idempotent (s : Store) (n : String)
    (t r t₂ r₂ : Option String) :
    (register s n t r).1.ok = true ∧
    (register (register s n t r).2 n t₂ r₂).1.ok = true ∧
    (register (register s n t r).2 n t₂ r₂).2 = (register s n t r).2 := by
  cases hf : findUser s.users n with
  | some u => simp [register, hf]
  | none =>
      have h1 : register s n t r = (⟨true, none⟩,
          { s with users := s.users ++ [⟨n, t, r, false, 0⟩] }) := by
        simp only [register, hf]
      have h2 : findUser (s.users ++ [(⟨n, t, r, false, 0⟩ : User)]) n =
          some ⟨n, t, r, false, 0⟩ := by
        unfold findUser at hf ⊢
        rw [List.find?_append, hf]
        simp
      rw [h1]
      simp [register, h2]

/-- C8: leaderboard groups rewards by username, sums points_awarded per
username, returns totals in descending order truncated to at most limit
entries with each username listed once, and (being a pure function of the
store) modifies no state; over rewards {A:50, B:30, A:20} it returns
[(A,70), (B,30)]. -/
theorem C8_leaderboard_spec (s : Store) (limit : Nat) :
    (leaderboard s limit).Pairwise (fun a b => b.2 ≤ a.2) ∧
    (leaderboard s limit).length ≤ limit ∧
    (∀ p ∈ leaderboard s limit, p.2 = rewardTotal s.rewards p.1 ∧
      p.1 ∈ s.rewards.map (fun r => r.username)) ∧
    ((leaderboard s limit).map Prod.fst).Nodup ∧
    leaderboard ⟨[], exampleRewards, []⟩ 20 = [("A", 70), ("B", 30)] := by
  refine ⟨?_, ?_, ?_, ?_, by decide⟩
  · exact (sortDesc_pairwise _).sublist (List.take_sublist _ _)
  · exact List.length_take_le limit _
  · intro p hp
    have hp₁ : p ∈ sortDesc ((s.rewards.map (fun r => r.username)).dedup.map
        (fun n => (n, rewardTotal s.rewards n))) := List.mem_of_mem_take hp
    have hp₂ := (sortDesc_perm _).mem_iff.mp hp₁
    obtain ⟨nm, hnm, hpeq⟩ := List.mem_map.mp hp₂
    refine ⟨?_, ?_⟩
    · rw [← hpeq]
    · rw [← hpeq]
      exact List.mem_dedup.mp hnm
  · have hmap : (sortDesc ((s.rewards.map (fun r => r.username)).dedup.map
        (fun n => (n, rewardTotal s.rewards n)))).map Prod.fst |>.Nodup := by
      have hperm : ((sortDesc ((s.rewards.map (fun r => r.username)).dedup.map
          (fun n => (n, rewardTotal s.rewards n)))).map Prod.fst).Perm
          ((((s.rewards.map (fun r => r.username)).dedup.map
            (fun n => (n, rewardTotal s.rewards n)))).map Prod.fst) :=
        (sortDesc_perm _).map Prod.fst
      rw [hperm.nodup_iff, List.map_map]
      have hid : (Prod.fst ∘ fun n => (n, rewardTotal s.rewards n)) = id := rfl
      rw [hid, List.map_id]
      exact List.nodup_dedup _
    unfold leaderboard
    rw [List.map_take]
    exact hmap.sublist (List.take_sublist _ _)

/-- C9: for every game identifier and every integer score, negative scores
included, points_for lands in [0, 100]; consequently submit_score with a
negative score succeeds for an existing non-banned user and awards exactly
0 points. -/
theorem C9_range_and_negative_score (s : Store) (un gm : String)
    (sc d : Int) (u : User) (hu : findUser s.users un = some u)
    (hb : u.is_banned = false) (hneg : sc < 0) :
    (∀ g x, 0 ≤ points_for g x ∧ points_for g x ≤ 100) ∧
    submit_score s un gm sc d =
      Except.ok (0, { s with
        rewards := s.rewards ++ [⟨un, gm, sc, 0, "session_completed"⟩],
        users := update_balance s.users un 0 }) := by
  refine ⟨fun g x => ⟨points_for_nonneg g x, points_for_le g x⟩, ?_⟩
  have hz := points_for_of_neg gm sc hneg
  simp [submit_score, hu, hb, hz]

/-- Witness for C9: alice submits a word score of -5 and is credited 0. -/
theorem C9_range_and_negative_score_witness :
    (0 ≤ points_for "word" (-5) ∧ points_for "word" (-5) ≤ 100) ∧
    submit_score sampleStore "alice" "word" (-5) 3 =
      Except.ok (0, { sampleStore with
        rewards := sampleStore.rewards ++
          [⟨"alice", "word", -5, 0, "session_completed"⟩],
        users := update_balance sampleStore.users "alice" 0 }) :=
  let h := C9_range_and_negative_score sampleStore "alice" "word" (-5) 3
    sampleUser (by decide) (by decide) (by decide)
  ⟨h.1 "word" (-5), h.2⟩

/-- C10: frame condition: a successful submit_score changes only the
rewards list (one appended record) and the named user's balance; a
successful request_withdrawal changes only the withdrawals list (one
appended pending record) and the named user's balance.  In both cases the
named user's username, ton_address, referred_by and is_banned fields, all
other user records, and all previously stored Reward and WithdrawalRequest
records are untouched. -/
theorem C10_frame (s : Store) (un g t : String) (sc d p : Int) (u : User)
    (hu : findUser s.users un = some u) :
    (u.is_banned = false →
      ∃ s₁, submit_score s un g sc d = Except.ok (points_for g sc, s₁) ∧
        s₁.withdrawals = s.withdrawals ∧
        s₁.rewards = s.rewards ++
          [⟨un, g, sc, points_for g sc, "session_completed"⟩] ∧
        UsersFrame s.users s₁.users un (points_for g sc)) ∧
    (0 < p → p ≤ u.balance →
      ∃ s₂, request_withdrawal s un t p = Except.ok s₂ ∧
        s₂.rewards = s.rewards ∧
        s₂.withdrawals = s.withdrawals ++ [⟨un, t, p, "pending"⟩] ∧
        UsersFrame s.users s₂.users un (-p)) := by
  obtain ⟨pre, post, heq, hn, hpre⟩ := findUser_decomp s.users un u hu
  have hframe : ∀ δ : Int, UsersFrame s.users (update_balance s.users un δ) un δ := by
    intro δ
    refine ⟨pre, u, post, heq, hn, hpre, ?_⟩
    rw [heq]
    exact update_balance_decomp pre post u un δ hpre hn
  constructor
  · intro hb
    refine ⟨{ s with
      rewards := s.rewards ++ [⟨un, g, sc, points_for g sc, "session_completed"⟩],
      users := update_balance s.users un (points_for g sc) }, ?_, rfl, rfl,
      hframe (points_for g sc)⟩
    simp [submit_score, hu, hb]
  · intro h0 hble
    have hcond : ¬(p ≤ 0 ∨ u.balance < p) := by
      push_neg
      exact ⟨h0, hble⟩
    refine ⟨{ s with
      withdrawals := s.withdrawals ++ [⟨un, t, p, "pending"⟩],
      users := update_balance s.users un (-p) }, ?_, rfl, rfl, hframe (-p)⟩
    simp only [request_withdrawal, hu, if_neg hcond]

/-- Witness for C10: alice submits a tiles score of 500 and withdraws 30. -/
theorem C10_frame_witness :
    (∃ s₁, submit_score sampleStore "alice" "tiles" 500 9 =
        Except.ok (points_for "tiles" 500, s₁) ∧
      s₁.withdrawals = sampleStore.withdrawals ∧
      s₁.rewards = sampleStore.rewards ++
        [⟨"alice", "tiles", 500, points_for "tiles" 500, "session_completed"⟩] ∧
      UsersFrame sampleStore.users s₁.users "alice" (points_for "tiles" 500)) ∧
    (∃ s₂, request_withdrawal sampleStore "alice" "addr1" 30 = Except.ok s₂ ∧
      s₂.rewards = sampleStore.rewards ∧
      s₂.withdrawals = sampleStore.withdrawals ++ [⟨"alice", "addr1", 30, "pending"⟩] ∧
      UsersFrame sampleStore.users s₂.users "alice" (-30)) :=
  let h := C10_frame sampleStore "alice" "tiles" "addr1" 500 9 30 sampleUser
    (by decide)
  ⟨h.1 (by decide), h.2 (by decide) (by decide)⟩

end Claims

end RewardApi
